import Mathlib

/-!
Verification of the job-trends forecasting core (`utils/predictor.py`,
`utils/market_health.py`) against its natural-language specification.
Counts and regression arithmetic are modelled exactly over `ℚ`;
the z-score path of the health index (which takes a real square root)
is modelled over `ℝ`.  Pandas/numpy NaN values are modelled as `none`
in `Option`-valued columns.
-/

namespace JobTrends

/-- A normalized job posting record, as consumed by the core
(`month_year` buckets are chronologically sortable; we model them as
month indices). -/
structure Posting where
  monthYear : Nat
  jobType : String
  company : String
  location : String
deriving DecidableEq, Repr

/-- The distinct month keys appearing in `ms`, ascending.  Models the index
of `df.groupby('month_year')` (pandas returns group keys sorted). -/
def sortedKeys (ms : List Nat) : List Nat :=
  List.insertionSort (fun a b => a ≤ b) ms.dedup

/-- Models `df.groupby('month_year').size()` followed by `sort_index()`:
one `(month, count)` pair per observed month, ascending by month. -/
def groupSizes (ms : List Nat) : List (Nat × Nat) :=
  (sortedKeys ms).map (fun k => (k, ms.count k))

/-- The earliest observed month (head of the sorted index). -/
def minMonth (ms : List Nat) : Nat := (sortedKeys ms).headD 0

/-- The latest observed month (last of the sorted index). -/
def maxMonth (ms : List Nat) : Nat := (sortedKeys ms).getLastD 0

/-- Models `prepare_time_series_data` (predictor.py lines 9-45):
group by month and count, sort by the datetime index, resample to
month-start frequency summing each bin (an empty bin sums to 0, so
missing months are filled with 0; the trailing `fillna(0)` is a no-op). -/
def prepare_time_series_data (ms : List Nat) : List (Nat × Nat) :=
  if ms = [] then []
  else
    (List.range' (minMonth ms) (maxMonth ms + 1 - minMonth ms)).map
      (fun m => (m, ((groupSizes ms).lookup m).getD 0))

/-- Models `df[df['job_type'] == job_type]` when a type is given
(predictor.py lines 60-63). -/
def filterType (ps : List Posting) (jobType : Option String) : List Posting :=
  match jobType with
  | some t => ps.filter (fun p => p.jobType = t)
  | none => ps

/-- The historical series `forecast_job_trends` fits on (predictor.py
lines 66-72): `groupby('month_year').size()` sorted by date.  Note: no
resampling or zero-filling is applied here. -/
def forecastHistorical (ps : List Posting) (jobType : Option String) : List (Nat × Nat) :=
  groupSizes ((filterType ps jobType).map (fun p => p.monthYear))

/-- `seasonal_periods=3` (predictor.py line 80). -/
def seasonalPeriods : Nat := 3

/-- Models `forecast_job_trends` (predictor.py lines 47-101).  The
Holt-Winters fit itself is a numerical optimisation and is passed in as
the parameter `fit` (mapping the historical counts and horizon to the
point forecasts).  The statsmodels `ExponentialSmoothing` model with a
seasonal component raises `ValueError` when the series is shorter than
two full seasonal cycles (seasonal initialization requires
`2 * seasonal_periods` observations); the source wraps the constructor
and `fit` call in no try/except, so that error propagates to the caller,
modelled as `Except.error`. -/
def forecast_job_trends (fit : List Nat → Nat → List ℚ) (ps : List Posting)
    (periods : Nat) (jobType : Option String) :
    Except String (List ℚ × List (Nat × Nat)) :=
  let ts := forecastHistorical ps jobType
  if ts.length < 2 * seasonalPeriods then
    Except.error "ValueError: seasonal initialization needs two full cycles"
  else
    Except.ok (fit (ts.map Prod.snd) periods, ts)

/-- Mean of a list of rationals (`Series.mean()`); the empty mean is 0
(pandas would give NaN, only ever taken here on nonempty slices). -/
def qMean (xs : List ℚ) : ℚ := xs.sum / xs.length

/-- The growth baseline `monthly_counts.iloc[-min(3, len):].mean()`
(predictor.py line 133). -/
def currentCount (counts : List Nat) : ℚ :=
  qMean ((counts.drop (counts.length - min 3 counts.length)).map (fun c => (Nat.cast c : ℚ)))

/-- Ordinary-least-squares slope of counts against the index `0,1,…,n-1`,
as computed by `LinearRegression().fit` (predictor.py lines 136-141). -/
def lrSlope (ys : List ℚ) : ℚ :=
  let xs : List ℚ := (List.range ys.length).map (fun i => (Nat.cast i : ℚ))
  let xm := qMean xs
  let ym := qMean ys
  ((xs.zip ys).map (fun p => (p.1 - xm) * (p.2 - ym))).sum /
    ((xs.map (fun x => (x - xm) ^ 2)).sum)

/-- Ordinary-least-squares intercept. -/
def lrIntercept (ys : List ℚ) : ℚ :=
  qMean ys - lrSlope ys * qMean ((List.range ys.length).map (fun i => (Nat.cast i : ℚ)))

/-- `model.predict` at time index `t`. -/
def lrPredict (ys : List ℚ) (t : ℚ) : ℚ := lrIntercept ys + lrSlope ys * t

/-- `predicted_count = np.mean(future_y)` over the `periods` indices
following the history (predictor.py lines 144-148). -/
def predictedCount (counts : List Nat) (periods : Nat) : ℚ :=
  let ys := counts.map (fun c => (Nat.cast c : ℚ))
  qMean ((List.range' counts.length periods).map (fun t => lrPredict ys (t : ℚ)))

/-- The growth percentage (predictor.py lines 150-154): the relative
change when the baseline is positive, and 0 otherwise. -/
def growthPercent (current predicted : ℚ) : ℚ :=
  if 0 < current then (predicted - current) / current * 100 else 0

/-- Python `round(x, 1)` (round half to even on the scaled value). -/
def round1 (x : ℚ) : ℚ :=
  let q : ℚ := 10 * x
  let n : ℤ := ⌊q⌋
  let r : ℚ := q - n
  (if r < 1 / 2 then (n : ℚ)
   else if 1 / 2 < r then (n : ℚ) + 1
   else if n % 2 = 0 then (n : ℚ) else (n : ℚ) + 1) / 10

/-- One row of the growth table. -/
structure GrowthRow where
  jobType : String
  current : ℚ
  predicted : ℚ
  growth : ℚ
deriving DecidableEq, Repr

/-- The monthly counts of one category:
`df[df['job_type'] == jt].groupby('month_year').size()` sorted
(predictor.py lines 123-128). -/
def categoryCounts (ps : List Posting) (jt : String) : List Nat :=
  (groupSizes ((ps.filter (fun p => p.jobType = jt)).map (fun p => p.monthYear))).map Prod.snd

/-- The row stored for one category (predictor.py lines 130-164): with at
least 2 monthly data points, the rounded baseline/prediction/growth;
otherwise the zero placeholder. -/
def growthRow (ps : List Posting) (periods : Nat) (jt : String) : GrowthRow :=
  let counts := categoryCounts ps jt
  if 2 ≤ counts.length then
    let c := currentCount counts
    let p := predictedCount counts periods
    { jobType := jt, current := round1 c, predicted := round1 p,
      growth := round1 (growthPercent c p) }
  else
    { jobType := jt, current := 0, predicted := 0, growth := 0 }

/-- `df['job_type'].unique()`: the distinct category labels present. -/
def uniqueJobTypes (ps : List Posting) : List String :=
  (ps.map (fun p => p.jobType)).dedup

/-- Descending comparison on the growth column, the sort key of
`sort_values('Growth %', ascending=False)`. -/
def growthGE (a b : GrowthRow) : Prop := b.growth ≤ a.growth

instance : DecidableRel growthGE :=
  fun a b => inferInstanceAs (Decidable (b.growth ≤ a.growth))

instance : IsTotal GrowthRow growthGE :=
  ⟨fun a b => le_total b.growth a.growth⟩

instance : IsTrans GrowthRow growthGE :=
  ⟨fun _ _ _ hab hbc => le_trans hbc hab⟩

/-- Models `predict_job_type_growth` (predictor.py lines 103-169): one row
per distinct job type, sorted descending by the growth column.  (pandas
`sort_values` is an unstable quicksort; we use a sort for the same
relation — the claims do not depend on tie order.) -/
def predict_job_type_growth (ps : List Posting) (periods : Nat) : List GrowthRow :=
  List.insertionSort growthGE ((uniqueJobTypes ps).map (growthRow ps periods))

/-! ### Confidence bands (plot_job_forecast) and the market health index.
The z-score normalization path takes a real square root, so this part of
the development lives in `ℝ`; NaN-valued cells are modelled as `none`. -/

noncomputable section

/-- Mean of a list of reals. -/
def rMean (xs : List ℝ) : ℝ := xs.sum / xs.length

/-- `historical.std()`: pandas sample standard deviation (ddof = 1).
(For a single observation pandas yields NaN; that case is unreachable
here because the forecaster requires at least six points.) -/
def sampleStd (xs : List ℝ) : ℝ :=
  Real.sqrt ((xs.map (fun x => (x - rMean xs) ^ 2)).sum / ((xs.length : ℝ) - 1))

/-- The confidence bands of `plot_job_forecast` (predictor.py lines
191-200): `(upper, lower)` where the width is `1.96 * historical.std()`,
added to and subtracted from each forecast point, and the lower band is
clipped at 0 (`clip(lower=0)` is `max · 0`). -/
def confidenceBands (forecast historical : List ℝ) : List ℝ × List ℝ :=
  let ciWidth : ℝ := 1.96 * sampleStd historical
  (forecast.map (fun y => y + ciWidth), forecast.map (fun y => max (y - ciWidth) 0))

end

/-- The five raw monthly signals of the health index (market_health.py
lines 43-63), kept as exact rationals. -/
structure MonthStats where
  jobCount : ℚ
  companyDiversity : ℚ
  jobTypeDiversity : ℚ
  locationDiversity : ℚ
  remoteRatio : ℚ
deriving DecidableEq, Repr

/-- Does `needle` start `hay`? -/
def startsWithCh : List Char → List Char → Bool
  | [], _ => true
  | _ :: _, [] => false
  | a :: as, b :: bs => a = b && startsWithCh as bs

/-- Contiguous-substring test on character lists (models `str.contains`). -/
def containsSub (needle : List Char) : List Char → Bool
  | [] => startsWithCh needle []
  | b :: bs => startsWithCh needle (b :: bs) || containsSub needle bs

/-- Models `location.str.lower().str.contains('remote')`. -/
def isRemote (loc : String) : Bool :=
  containsSub "remote".toList loc.toLower.toList

/-- The raw signals of one month's group (market_health.py lines 43-63). -/
def monthStats (ps : List Posting) (k : Nat) : MonthStats :=
  let g := ps.filter (fun p => p.monthYear = k)
  { jobCount := g.length
    companyDiversity := ((g.map (fun p => p.company)).dedup).length
    jobTypeDiversity := ((g.map (fun p => p.jobType)).dedup).length
    locationDiversity := ((g.map (fun p => p.location)).dedup).length
    remoteRatio :=
      if 0 < g.length then
        ((g.filter (fun p => isRemote p.location)).length : ℚ) / (g.length : ℚ)
      else 0 }

/-- The monthly statistics rows, one per observed month, ascending
(market_health.py lines 40-73). -/
def monthlyStats (ps : List Posting) : List MonthStats :=
  (sortedKeys (ps.map (fun p => p.monthYear))).map (monthStats ps)

/-- The five signal columns, in the iteration order of the default
weights dictionary. -/
def signalColumns (stats : List MonthStats) : List (List ℚ) :=
  [stats.map (fun s => s.jobCount),
   stats.map (fun s => s.companyDiversity),
   stats.map (fun s => s.jobTypeDiversity),
   stats.map (fun s => s.locationDiversity),
   stats.map (fun s => s.remoteRatio)]

/-- The default factor weights 0.4, 0.2, 0.2, 0.1, 0.1
(market_health.py lines 31-38). -/
def defaultWeights : List ℚ := [2 / 5, 1 / 5, 1 / 5, 1 / 10, 1 / 10]

/-- Minimum of a rational column (`Series.min()`), nonempty case. -/
def qMinL (xs : List ℚ) : ℚ :=
  match xs with
  | [] => 0
  | x :: r => r.foldl min x

/-- Maximum of a rational column (`Series.max()`), nonempty case. -/
def qMaxL (xs : List ℚ) : ℚ :=
  match xs with
  | [] => 0
  | x :: r => r.foldl max x

/-- Population variance (`ddof = 0`), the square of the std used by
`scipy.stats.zscore`. -/
def qVarP (xs : List ℚ) : ℚ :=
  (xs.map (fun x => (x - qMean xs) ^ 2)).sum / xs.length

/-- The min-max branch of signal normalization (market_health.py lines
84-90): scale into [-1, 1] when the signal varies, else the constant 0. -/
def minmaxNorm (xs : List ℚ) : List ℚ :=
  if qMinL xs < qMaxL xs then
    xs.map (fun x => (x - qMinL xs) / (qMaxL xs - qMinL xs) * 2 - 1)
  else xs.map (fun _ => 0)

noncomputable section

/-- The z-score branch (market_health.py lines 79-82):
`zscore(column)` clipped to [-3, 3].  A zero-variance column makes
`zscore` divide 0 by 0, producing NaN for every month (and `clip` keeps
NaN), modelled as `none`. -/
def zscoreClip (xs : List ℚ) : List (Option ℝ) :=
  if qVarP xs = 0 then xs.map (fun _ => none)
  else
    xs.map (fun x =>
      some (min (max ((Rat.cast x - Rat.cast (qMean xs)) /
        Real.sqrt (Rat.cast (qVarP xs))) (-3)) 3))

/-- Signal normalization (market_health.py lines 75-90): population
z-score clipped to [-3, 3] with at least 3 months of history, min-max
scaling to [-1, 1] otherwise. -/
def normSignal (xs : List ℚ) : List (Option ℝ) :=
  if 3 ≤ xs.length then zscoreClip xs
  else (minmaxNorm xs).map (fun q => some ((Rat.cast q : ℝ)))

/-- NaN-propagating addition of two cells. -/
def optAdd : Option ℝ → Option ℝ → Option ℝ
  | some x, some y => some (x + y)
  | _, _ => none

/-- The weighted composite `health_index` column (market_health.py lines
92-96): starting from 0, add `norm * weight` for each factor; a NaN in
any factor makes the month's composite NaN. -/
def healthIndexList (stats : List MonthStats) : List (Option ℝ) :=
  let cols := (signalColumns stats).map normSignal
  (List.range stats.length).map (fun i =>
    (defaultWeights.zip cols).foldl
      (fun acc wc => optAdd acc ((wc.2.getD i none).map (fun v => v * ((wc.1 : ℚ) : ℝ))))
      (some 0))

/-- The non-NaN values of a column (pandas aggregations skip NaN). -/
def someVals (xs : List (Option ℝ)) : List ℝ := xs.filterMap id

/-- `Series.min()` with NaN skipped; NaN (`none`) when no value remains. -/
def rMinL (xs : List ℝ) : Option ℝ :=
  match xs with
  | [] => none
  | x :: r => some (r.foldl min x)

/-- `Series.max()` with NaN skipped; NaN (`none`) when no value remains. -/
def rMaxL (xs : List ℝ) : Option ℝ :=
  match xs with
  | [] => none
  | x :: r => some (r.foldl max x)

/-- Rescaling of the composite to the 0-100 scale (market_health.py lines
98-105): min-max over the column when `max > min` (NaN cells stay NaN),
otherwise the whole column is set to the scalar 50.  A NaN min/max makes
the comparison false, so the 50 branch is also taken then. -/
def rescaleIndex (hs : List (Option ℝ)) : List (Option ℝ) :=
  match rMinL (someVals hs), rMaxL (someVals hs) with
  | some mn, some mx =>
    if mn < mx then hs.map (Option.map (fun h => (h - mn) / (mx - mn) * 100))
    else hs.map (fun _ => some 50)
  | _, _ => hs.map (fun _ => some 50)

/-- The moving-average smoothing (market_health.py lines 107-111): when
the series is at least `window` long, `rolling(window).mean()` — NaN
until the window is full and NaN whenever the window contains a NaN —
otherwise the unsmoothed column unchanged. -/
def movingAvgCol (window : Nat) (xs : List (Option ℝ)) : List (Option ℝ) :=
  if window ≤ xs.length then
    (List.range xs.length).map (fun i =>
      if i + 1 < window then none
      else
        let w := (xs.drop (i + 1 - window)).take window
        if w.all Option.isSome then some ((someVals w).sum / (window : ℝ)) else none)
  else xs

/-- The `health_index_scaled` column of
`calculate_job_market_health_index` for a posting set. -/
def health_index_scaled (ps : List Posting) : List (Option ℝ) :=
  rescaleIndex (healthIndexList (monthlyStats ps))

/-- The `health_index_ma` column of `calculate_job_market_health_index`
for a posting set and moving-average window. -/
def health_index_ma (ps : List Posting) (window : Nat) : List (Option ℝ) :=
  movingAvgCol window (health_index_scaled ps)

end

/-! ### Concrete inputs used by counterexamples and witnesses. -/

/-- A fit function standing in for the optimiser (its value is irrelevant
to the claims, which concern the validation/error path). -/
def constFit : List Nat → Nat → List ℚ := fun _ _ => []

/-- Two-month history: too short for the seasonal fit. -/
def c1ps : List Posting :=
  [⟨0, "x", "c", "l"⟩, ⟨1, "x", "c", "l"⟩]

/-- Two postings of one category in two consecutive months. -/
def c3ps : List Posting :=
  [⟨0, "x", "c", "l"⟩, ⟨1, "x", "c", "l"⟩]

/-- Two identical months of postings. -/
def c4ps : List Posting :=
  [⟨0, "a", "x", "l"⟩, ⟨1, "a", "x", "l"⟩]

/-- Two identical months of postings. -/
def c5ps : List Posting :=
  [⟨0, "b", "y", "m"⟩, ⟨1, "b", "y", "m"⟩]

/-- Postings in months 0 and 2 only: month 1 is a gap. -/
def c6ps : List Posting :=
  [⟨0, "x", "c", "l"⟩, ⟨2, "x", "c", "l"⟩]

/-- Category "a" has two monthly data points, category "b" only one. -/
def c9ps : List Posting :=
  [⟨0, "a", "c1", "l1"⟩, ⟨1, "a", "c1", "l1"⟩, ⟨1, "b", "c2", "l2"⟩]

/-- A single posting, hence a single month of history. -/
def c10ps : List Posting :=
  [⟨5, "a", "x", "l"⟩]

/-! ### Generic list lemmas. -/

theorem foldl_min_le {α : Type _} [LinearOrder α] :
    ∀ (l : List α) (a x : α), x = a ∨ x ∈ l → l.foldl min a ≤ x := by
  intro l
  induction l with
  | nil =>
    intro a x hx
    rcases hx with h | h
    · simp [h]
    · simp at h
  | cons b t ih =>
    intro a x hx
    simp only [List.foldl_cons]
    rcases hx with h | h
    · subst h
      exact le_trans (ih (min x b) (min x b) (Or.inl rfl)) (min_le_left _ _)
    · rcases List.mem_cons.mp h with h | h
      · subst h
        exact le_trans (ih (min a x) (min a x) (Or.inl rfl)) (min_le_right _ _)
      · exact ih _ _ (Or.inr h)

theorem le_foldl_max {α : Type _} [LinearOrder α] :
    ∀ (l : List α) (a x : α), x = a ∨ x ∈ l → x ≤ l.foldl max a := by
  intro l
  induction l with
  | nil =>
    intro a x hx
    rcases hx with h | h
    · simp [h]
    · simp at h
  | cons b t ih =>
    intro a x hx
    simp only [List.foldl_cons]
    rcases hx with h | h
    · subst h
      exact le_trans (le_max_left _ _) (ih (max x b) (max x b) (Or.inl rfl))
    · rcases List.mem_cons.mp h with h | h
      · subst h
        exact le_trans (le_max_right _ _) (ih (max a x) (max a x) (Or.inl rfl))
      · exact ih _ _ (Or.inr h)

theorem le_foldl_min {α : Type _} [LinearOrder α] :
    ∀ (l : List α) (a c : α), c ≤ a → (∀ x ∈ l, c ≤ x) → c ≤ l.foldl min a := by
  intro l
  induction l with
  | nil => intro a c hc _; simpa using hc
  | cons b t ih =>
    intro a c hc hl
    simp only [List.foldl_cons]
    exact ih _ _ (le_min hc (hl b (List.mem_cons_self b t)))
      (fun x hx => hl x (List.mem_cons_of_mem b hx))

theorem foldl_max_le {α : Type _} [LinearOrder α] :
    ∀ (l : List α) (a c : α), a ≤ c → (∀ x ∈ l, x ≤ c) → l.foldl max a ≤ c := by
  intro l
  induction l with
  | nil => intro a c hc _; simpa using hc
  | cons b t ih =>
    intro a c hc hl
    simp only [List.foldl_cons]
    exact ih _ _ (max_le hc (hl b (List.mem_cons_self b t)))
      (fun x hx => hl x (List.mem_cons_of_mem b hx))

theorem headD_mem {α : Type _} {l : List α} (h : l ≠ []) (d : α) : l.headD d ∈ l := by
  cases l with
  | nil => exact absurd rfl h
  | cons a t => simp

theorem getLastD_mem {α : Type _} : ∀ (l : List α) (d : α), l ≠ [] → l.getLastD d ∈ l := by
  intro l
  induction l with
  | nil => intro d h; exact absurd rfl h
  | cons a t ih =>
    intro d _
    rw [List.getLastD_cons]
    cases t with
    | nil => simp
    | cons b u => exact List.mem_cons_of_mem a (ih a (by simp))

theorem headD_le_of_sorted {α : Type _} [Preorder α] {l : List α}
    (h : l.Sorted (· ≤ ·)) (d : α) : ∀ x ∈ l, l.headD d ≤ x := by
  cases l with
  | nil => simp
  | cons a t =>
    intro x hx
    rcases List.mem_cons.mp hx with rfl | hx
    · simp
    · simpa using List.rel_of_sorted_cons h x hx

theorem le_getLastD_of_sorted {α : Type _} [Preorder α] :
    ∀ (l : List α) (d : α), l.Sorted (· ≤ ·) → ∀ x ∈ l, x ≤ l.getLastD d := by
  intro l
  induction l with
  | nil => simp
  | cons a t ih =>
    intro d h x hx
    rw [List.getLastD_cons]
    rcases List.mem_cons.mp hx with rfl | hx
    · cases t with
      | nil => simp
      | cons b u =>
        exact List.rel_of_sorted_cons h _ (getLastD_mem (b :: u) x (by simp))
    · exact ih a h.of_cons x hx

theorem lookup_map_pair (f : Nat → Nat) :
    ∀ (ks : List Nat) (k : Nat),
      ((ks.map (fun x => (x, f x))).lookup k) = if k ∈ ks then some (f k) else none := by
  intro ks
  induction ks with
  | nil => simp [List.lookup]
  | cons a t ih =>
    intro k
    by_cases hk : k = a
    · subst hk
      simp [List.lookup]
    · have hb : (k == a) = false := beq_eq_false_iff_ne.mpr hk
      simp [List.lookup, hb, hk, ih k]

/-! ### Facts about the grouped monthly index. -/

theorem sortedKeys_perm (ms : List Nat) : List.Perm (sortedKeys ms) ms.dedup :=
  List.perm_insertionSort _ _

theorem sortedKeys_sorted (ms : List Nat) : (sortedKeys ms).Sorted (· ≤ ·) :=
  List.sorted_insertionSort _ _

theorem sortedKeys_nodup (ms : List Nat) : (sortedKeys ms).Nodup :=
  (sortedKeys_perm ms).nodup_iff.mpr (List.nodup_dedup ms)

theorem mem_sortedKeys {ms : List Nat} {k : Nat} : k ∈ sortedKeys ms ↔ k ∈ ms :=
  ((sortedKeys_perm ms).mem_iff).trans (List.mem_dedup)

theorem sortedKeys_ne_nil {ms : List Nat} (h : ms ≠ []) : sortedKeys ms ≠ [] := by
  intro hnil
  rcases List.exists_mem_of_ne_nil ms h with ⟨x, hx⟩
  have : x ∈ sortedKeys ms := mem_sortedKeys.mpr hx
  rw [hnil] at this
  simp at this

theorem groupSizes_lookup (ms : List Nat) (k : Nat) :
    (((groupSizes ms).lookup k).getD 0) = ms.count k := by
  unfold groupSizes
  rw [lookup_map_pair]
  by_cases hk : k ∈ sortedKeys ms
  · simp [hk]
  · have : k ∉ ms := fun hm => hk (mem_sortedKeys.mpr hm)
    simp [hk, List.count_eq_zero.mpr this]

theorem minMonth_spec {ms : List Nat} (h : ms ≠ []) :
    minMonth ms ∈ ms ∧ ∀ x ∈ ms, minMonth ms ≤ x := by
  constructor
  · exact mem_sortedKeys.mp (headD_mem (sortedKeys_ne_nil h) 0)
  · intro x hx
    exact headD_le_of_sorted (sortedKeys_sorted ms) 0 x (mem_sortedKeys.mpr hx)

theorem maxMonth_spec {ms : List Nat} (h : ms ≠ []) :
    maxMonth ms ∈ ms ∧ ∀ x ∈ ms, x ≤ maxMonth ms := by
  constructor
  · exact mem_sortedKeys.mp (getLastD_mem _ 0 (sortedKeys_ne_nil h))
  · intro x hx
    exact le_getLastD_of_sorted _ 0 (sortedKeys_sorted ms) x (mem_sortedKeys.mpr hx)

theorem groupSizes_map_fst (ms : List Nat) :
    (groupSizes ms).map Prod.fst = sortedKeys ms := by
  simp [groupSizes, List.map_map, Function.comp_def]

/-- C6 (amended): for every non-empty posting set, the series built by
`prepare_time_series_data` contains exactly one entry per calendar month
from the earliest to the latest observed month, ascending, with value
the number of postings of that month (0 for months with no postings);
the historical series the forecaster fits on, by contrast, contains
exactly the observed months (ascending, no zero-filling of gaps). -/
theorem claim_C6_amended (ms : List Nat) (h : ms ≠ []) :
    ((prepare_time_series_data ms).map Prod.fst
        = List.range' (minMonth ms) (maxMonth ms + 1 - minMonth ms))
    ∧ (∀ p ∈ prepare_time_series_data ms, p.2 = ms.count p.1)
    ∧ (minMonth ms ∈ ms ∧ ∀ x ∈ ms, minMonth ms ≤ x)
    ∧ (maxMonth ms ∈ ms ∧ ∀ x ∈ ms, x ≤ maxMonth ms)
    ∧ ((groupSizes ms).map Prod.fst).Sorted (· < ·)
    ∧ (∀ k, k ∈ (groupSizes ms).map Prod.fst ↔ k ∈ ms)
    ∧ (∀ p ∈ groupSizes ms, p.2 = ms.count p.1) := by
  refine ⟨?_, ?_, minMonth_spec h, maxMonth_spec h, ?_, ?_, ?_⟩
  · simp [prepare_time_series_data, h, List.map_map, Function.comp_def]
  · intro p hp
    rw [prepare_time_series_data, if_neg h] at hp
    rcases List.mem_map.mp hp with ⟨m, _, rfl⟩
    exact groupSizes_lookup ms m
  · rw [groupSizes_map_fst]
    exact ((sortedKeys_sorted ms).and (sortedKeys_nodup ms)).imp
      (fun hab => lt_of_le_of_ne hab.1 hab.2)
  · intro k
    rw [groupSizes_map_fst]
    exact mem_sortedKeys
  · intro p hp
    rcases List.mem_map.mp hp with ⟨k, _, rfl⟩
    rfl

/-- C6 (counterexample): with postings in months 0 and 2 only, the
series the Smoothing Forecaster fits on has months [0, 2] — it is
missing the in-between calendar month 1, so it does not contain one
entry per calendar month of the observed span. -/
theorem claim_C6_counterexample :
    ¬ ((forecastHistorical c6ps none).map Prod.fst
        = List.range' (minMonth (c6ps.map (fun p => p.monthYear)))
            (maxMonth (c6ps.map (fun p => p.monthYear)) + 1
              - minMonth (c6ps.map (fun p => p.monthYear)))) := by
  decide

/-- C6 (witness): the amended claim applied to the month list [3, 4, 4]. -/
theorem claim_C6_amended_witness :
    ([3, 4, 4] : List Nat) ≠ []
    ∧ ∀ p ∈ prepare_time_series_data [3, 4, 4],
        p.2 = ([3, 4, 4] : List Nat).count p.1 :=
  ⟨by decide, (claim_C6_amended [3, 4, 4] (by decide)).2.1⟩

/-- C1 (amended): whenever the historical series is shorter than the two
full seasonal cycles the seasonal initialization needs, the modelled
`forecast_job_trends` propagates the `ValueError` — there is no
flat-line fallback path in the code, whatever the fitted model would
return. -/
theorem claim_C1_amended (fit : List Nat → Nat → List ℚ) (ps : List Posting)
    (periods : Nat) (jt : Option String)
    (h : (forecastHistorical ps jt).length < 2 * seasonalPeriods) :
    forecast_job_trends fit ps periods jt
      = Except.error "ValueError: seasonal initialization needs two full cycles" := by
  simp [forecast_job_trends, h]

/-- C1 (counterexample): a two-month history has too few points for the
seasonal period, and `forecast_job_trends` does not return a flat-line
forecast there — it raises (returns an error), for any fit function. -/
theorem claim_C1_counterexample :
    (forecastHistorical c1ps none).length < 2 * seasonalPeriods
    ∧ (forecast_job_trends constFit c1ps 6 none).isOk = false := by
  decide

/-- C1 (witness): the amended claim applied to the two-month input. -/
theorem claim_C1_amended_witness :
    (forecastHistorical c1ps none).length < 2 * seasonalPeriods
    ∧ forecast_job_trends constFit c1ps 3 none
        = Except.error "ValueError: seasonal initialization needs two full cycles" :=
  ⟨by decide, claim_C1_amended constFit c1ps 3 none (by decide)⟩

theorem one_le_categoryCounts (ps : List Posting) (jt : String) :
    ∀ c ∈ categoryCounts ps jt, 1 ≤ c := by
  intro c hc
  unfold categoryCounts at hc
  rcases List.mem_map.mp hc with ⟨p, hp, rfl⟩
  rcases List.mem_map.mp hp with ⟨k, hk, rfl⟩
  have hkm : k ∈ (List.filter (fun p => decide (p.jobType = jt)) ps).map
      (fun p => p.monthYear) := mem_sortedKeys.mp hk
  exact List.count_pos_iff.mpr hkm

theorem currentCount_pos (counts : List Nat) (h2 : 2 ≤ counts.length)
    (h1 : ∀ c ∈ counts, 1 ≤ c) : 0 < currentCount counts := by
  unfold currentCount qMean
  have hmin : min 3 counts.length ≤ counts.length := min_le_right _ _
  set S : List ℚ := (counts.drop (counts.length - min 3 counts.length)).map
    (fun c => (Nat.cast c : ℚ)) with hS
  have hlen : S.length = min 3 counts.length := by
    rw [hS, List.length_map, List.length_drop, Nat.sub_sub_self hmin]
  have hpos : 0 < S.length := by
    rw [hlen]
    exact lt_min (by norm_num) (lt_of_lt_of_le (by norm_num) h2)
  have hsum : 0 < S.sum := by
    apply List.sum_pos
    · intro x hx
      rw [hS] at hx
      rcases List.mem_map.mp hx with ⟨c, hc, rfl⟩
      have h1c := h1 c (List.mem_of_mem_drop hc)
      exact_mod_cast lt_of_lt_of_le Nat.zero_lt_one h1c
    · exact List.ne_nil_of_length_pos hpos
  exact div_pos hsum (by exact_mod_cast hpos)

/-- C3: for every category processed by `predict_job_type_growth` with at
least 2 monthly data points, the growth percentage equals
`(predicted - current) / current * 100` when `current > 0`, is 0 when
both baseline and prediction are 0, and is 100 when the baseline is 0
with a positive prediction.  (The last two cases never arise: every
monthly count of an observed month is at least 1, so the trailing-mean
baseline is positive.) -/
theorem claim_C3 (ps : List Posting) (jt : String) (periods : Nat)
    (h2 : 2 ≤ (categoryCounts ps jt).length) :
    ∀ c p : ℚ, c = currentCount (categoryCounts ps jt) →
      p = predictedCount (categoryCounts ps jt) periods →
      (0 < c → growthPercent c p = (p - c) / c * 100)
      ∧ (c = 0 ∧ p = 0 → growthPercent c p = 0)
      ∧ (c = 0 ∧ 0 < p → growthPercent c p = 100) := by
  intro c p hc _
  have hcpos : 0 < c := by
    rw [hc]
    exact currentCount_pos _ h2 (one_le_categoryCounts ps jt)
  refine ⟨fun h0 => ?_, fun h0 => ?_, fun h0 => ?_⟩
  · rw [growthPercent, if_pos h0]
  · exact absurd (h0.1 ▸ hcpos) (lt_irrefl 0)
  · exact absurd (h0.1 ▸ hcpos) (lt_irrefl 0)

/-- C3 (witness): the claim applied to the two-month single-category
input, whose monthly counts are [1, 1]. -/
theorem claim_C3_witness :
    2 ≤ (categoryCounts c3ps "x").length
    ∧ (0 < currentCount (categoryCounts c3ps "x") →
        growthPercent (currentCount (categoryCounts c3ps "x"))
            (predictedCount (categoryCounts c3ps "x") 6)
          = (predictedCount (categoryCounts c3ps "x") 6
              - currentCount (categoryCounts c3ps "x"))
              / currentCount (categoryCounts c3ps "x") * 100) :=
  ⟨by decide, (claim_C3 c3ps "x" 6 (by decide) _ _ rfl rfl).1⟩

/-- C8: the growth table returned by `predict_job_type_growth` is sorted
descending by the growth column (each row's growth is at least the next
row's). -/
theorem claim_C8 (ps : List Posting) (periods : Nat) :
    List.Sorted growthGE (predict_job_type_growth ps periods) :=
  List.sorted_insertionSort growthGE _

theorem growthRow_jobType (ps : List Posting) (periods : Nat) (jt : String) :
    (growthRow ps periods jt).jobType = jt := by
  by_cases h : 2 ≤ (categoryCounts ps jt).length <;> simp [growthRow, h]

/-- C9: `predict_job_type_growth` returns exactly one row per distinct
category label of the input (the row labels are a permutation of the
distinct labels, without duplicates), and a category with fewer than 2
monthly data points gets the zero placeholder row rather than being
omitted. -/
theorem claim_C9 (ps : List Posting) (periods : Nat) :
    List.Perm ((predict_job_type_growth ps periods).map (fun r => r.jobType))
      (uniqueJobTypes ps)
    ∧ ((predict_job_type_growth ps periods).map (fun r => r.jobType)).Nodup
    ∧ ∀ r ∈ predict_job_type_growth ps periods,
        (categoryCounts ps r.jobType).length < 2 →
          r.current = 0 ∧ r.predicted = 0 ∧ r.growth = 0 := by
  have hperm : List.Perm (predict_job_type_growth ps periods)
      ((uniqueJobTypes ps).map (growthRow ps periods)) :=
    List.perm_insertionSort _ _
  have hmapeq : ((uniqueJobTypes ps).map (growthRow ps periods)).map (fun r => r.jobType)
      = uniqueJobTypes ps := by
    rw [List.map_map]
    have hcong : ∀ jt ∈ uniqueJobTypes ps,
        ((fun r => r.jobType) ∘ growthRow ps periods) jt = jt :=
      fun jt _ => growthRow_jobType ps periods jt
    simpa using List.map_congr_left hcong
  have hp2 : List.Perm ((predict_job_type_growth ps periods).map (fun r => r.jobType))
      (uniqueJobTypes ps) := by
    have := hperm.map (fun r => r.jobType)
    rwa [hmapeq] at this
  refine ⟨hp2, ?_, ?_⟩
  · exact hp2.nodup_iff.mpr (List.nodup_dedup _)
  · intro r hr hlen
    have : r ∈ (uniqueJobTypes ps).map (growthRow ps periods) := hperm.mem_iff.mp hr
    rcases List.mem_map.mp this with ⟨jt, _, rfl⟩
    rw [growthRow_jobType] at hlen
    have hne : ¬ 2 ≤ (categoryCounts ps jt).length := not_le.mpr hlen
    refine ⟨?_, ?_, ?_⟩ <;> simp [growthRow, hne]

/-- C9 (witness): the placeholder clause at the concrete input where
category "b" has a single monthly data point. -/
theorem claim_C9_witness :
    growthRow c9ps 6 "b" ∈ predict_job_type_growth c9ps 6
    ∧ (categoryCounts c9ps (growthRow c9ps 6 "b").jobType).length < 2
    ∧ (growthRow c9ps 6 "b").current = 0
    ∧ (growthRow c9ps 6 "b").predicted = 0
    ∧ (growthRow c9ps 6 "b").growth = 0 := by
  have hmem : growthRow c9ps 6 "b" ∈ predict_job_type_growth c9ps 6 :=
    (List.perm_insertionSort growthGE _).mem_iff.mpr
      (List.mem_map_of_mem (growthRow c9ps 6) (by decide))
  exact ⟨hmem, by decide, (claim_C9 c9ps 6).2.2 _ hmem (by decide)⟩

theorem getD_map_real (f : ℝ → ℝ) (l : List ℝ) (i : Nat) (hi : i < l.length) :
    (l.map f).getD i 0 = f (l.getD i 0) := by
  have h1 : i < (l.map f).length := by simpa using hi
  rw [List.getD_eq_getElem _ _ h1, List.getD_eq_getElem _ _ hi, List.getElem_map]

/-- C2 (amended): for every forecast point, the lower band is nonnegative
and the point forecast is below the upper band; the full ordering
`lower ≤ point ≤ upper` additionally holds whenever the point forecast is
nonnegative.  (A negative point forecast — which the additive-trend
model can extrapolate to on a declining series — falls below the
zero-clipped lower band.) -/
theorem claim_C2_amended (forecast historical : List ℝ) (i : Nat)
    (hi : i < forecast.length) :
    0 ≤ (confidenceBands forecast historical).2.getD i 0
    ∧ forecast.getD i 0 ≤ (confidenceBands forecast historical).1.getD i 0
    ∧ (0 ≤ forecast.getD i 0 →
        (confidenceBands forecast historical).2.getD i 0 ≤ forecast.getD i 0
        ∧ (confidenceBands forecast historical).2.getD i 0
            ≤ (confidenceBands forecast historical).1.getD i 0) := by
  have hci : 0 ≤ 1.96 * sampleStd historical :=
    mul_nonneg (by norm_num) (Real.sqrt_nonneg _)
  simp only [confidenceBands]
  rw [getD_map_real _ _ i hi, getD_map_real _ _ i hi]
  refine ⟨le_max_right _ _, by linarith, fun hx => ⟨?_, ?_⟩⟩
  · exact max_le (by linarith) hx
  · exact max_le (by linarith) (by linarith)

/-- C2 (counterexample): on the declining history 25,20,…,0 with point
forecast −5 (the additive trend continued), the zero-clipped lower band
lies above the point forecast, so `lower ≤ point_forecast` fails. -/
theorem claim_C2_counterexample :
    ¬ ((confidenceBands [-5] [25, 20, 15, 10, 5, 0]).2.getD 0 0
        ≤ (([-5] : List ℝ).getD 0 0)) := by
  intro h
  have h0 : (0 : ℝ) ≤ (confidenceBands [-5] [25, 20, 15, 10, 5, 0]).2.getD 0 0 := by
    simp only [confidenceBands]
    rw [getD_map_real _ _ 0 (by simp)]
    exact le_max_right _ _
  have h5 : (([-5] : List ℝ).getD 0 0) = -5 := by simp
  rw [h5] at h
  linarith

/-- C2 (witness): the amended claim applied to forecast [3] and history
[1, 2, 3] at index 0. -/
theorem claim_C2_amended_witness :
    (0 : Nat) < ([3] : List ℝ).length
    ∧ 0 ≤ (confidenceBands [3] [1, 2, 3]).2.getD 0 0
    ∧ ([3] : List ℝ).getD 0 0 ≤ (confidenceBands [3] [1, 2, 3]).1.getD 0 0 :=
  ⟨by simp, (claim_C2_amended [3] [1, 2, 3] 0 (by simp)).1,
    (claim_C2_amended [3] [1, 2, 3] 0 (by simp)).2.1⟩

/-! ### Market health: structural lemmas. -/

theorem getD_mem_of_lt {α : Type _} (l : List α) (d : α) (i : Nat)
    (h : i < l.length) : l.getD i d ∈ l := by
  rw [List.getD_eq_getElem l d h]
  exact List.getElem_mem h

theorem minmaxNorm_length (xs : List ℚ) : (minmaxNorm xs).length = xs.length := by
  by_cases h : qMinL xs < qMaxL xs <;> simp [minmaxNorm, h]

theorem zscoreClip_length (xs : List ℚ) : (zscoreClip xs).length = xs.length := by
  by_cases h : qVarP xs = 0 <;> simp [zscoreClip, h]

theorem normSignal_length (xs : List ℚ) : (normSignal xs).length = xs.length := by
  by_cases h : 3 ≤ xs.length
  · rw [normSignal, if_pos h]
    exact zscoreClip_length xs
  · rw [normSignal, if_neg h, List.length_map, minmaxNorm_length]

theorem healthIndexList_length (stats : List MonthStats) :
    (healthIndexList stats).length = stats.length := by
  unfold healthIndexList
  rw [List.length_map, List.length_range]

theorem rescaleIndex_length (hs : List (Option ℝ)) :
    (rescaleIndex hs).length = hs.length := by
  unfold rescaleIndex
  rcases rMinL (someVals hs) with _ | mn <;> rcases rMaxL (someVals hs) with _ | mx
  · simp
  · simp
  · simp
  · split <;> split <;> simp

theorem movingAvgCol_length (window : Nat) (xs : List (Option ℝ)) :
    (movingAvgCol window xs).length = xs.length := by
  unfold movingAvgCol
  split <;> simp

theorem qMinL_le (xs : List ℚ) : ∀ x ∈ xs, qMinL xs ≤ x := by
  intro x hx
  cases xs with
  | nil => simp at hx
  | cons a t =>
    unfold qMinL
    rcases List.mem_cons.mp hx with rfl | hxt
    · exact foldl_min_le t x x (Or.inl rfl)
    · exact foldl_min_le t a x (Or.inr hxt)

theorem le_qMaxL (xs : List ℚ) : ∀ x ∈ xs, x ≤ qMaxL xs := by
  intro x hx
  cases xs with
  | nil => simp at hx
  | cons a t =>
    unfold qMaxL
    rcases List.mem_cons.mp hx with rfl | hxt
    · exact le_foldl_max t x x (Or.inl rfl)
    · exact le_foldl_max t a x (Or.inr hxt)

theorem normSignal_cases (xs : List ℚ) :
    (∀ o ∈ normSignal xs, o = none) ∨ (∀ o ∈ normSignal xs, o.isSome) := by
  unfold normSignal
  split
  · unfold zscoreClip
    split
    · left
      intro o ho
      rcases List.mem_map.mp ho with ⟨x, _, rfl⟩
      rfl
    · right
      intro o ho
      rcases List.mem_map.mp ho with ⟨x, _, rfl⟩
      rfl
  · right
    intro o ho
    rcases List.mem_map.mp ho with ⟨q, _, rfl⟩
    rfl

theorem optAdd_none_left (y : Option ℝ) : optAdd none y = none := by
  cases y <;> rfl

theorem foldl_optAdd_none {β : Type _} (f : β → Option ℝ) :
    ∀ l : List β, l.foldl (fun acc x => optAdd acc (f x)) none = none := by
  intro l
  induction l with
  | nil => rfl
  | cons b t ih =>
    simp only [List.foldl_cons, optAdd_none_left]
    exact ih

theorem foldl_optAdd_eq_none {β : Type _} (f : β → Option ℝ) :
    ∀ (l : List β) (a : ℝ), (∃ x ∈ l, f x = none) →
      l.foldl (fun acc x => optAdd acc (f x)) (some a) = none := by
  intro l
  induction l with
  | nil =>
    intro a h
    rcases h with ⟨x, hx, _⟩
    simp at hx
  | cons b t ih =>
    intro a h
    simp only [List.foldl_cons]
    rcases h with ⟨x, hx, hfx⟩
    rcases List.mem_cons.mp hx with rfl | hxt
    · rw [hfx]
      exact foldl_optAdd_none f t
    · cases hfb : f b with
      | none =>
        have ha : optAdd (some a) none = none := rfl
        rw [ha]
        exact foldl_optAdd_none f t
      | some v =>
        have ha : optAdd (some a) (some v) = some (a + v) := rfl
        rw [ha]
        exact ih (a + v) ⟨x, hxt, hfx⟩

theorem foldl_optAdd_isSome {β : Type _} (f : β → Option ℝ) :
    ∀ (l : List β) (a : ℝ), (∀ x ∈ l, (f x).isSome) →
      (l.foldl (fun acc x => optAdd acc (f x)) (some a)).isSome := by
  intro l
  induction l with
  | nil =>
    intro a _
    rfl
  | cons b t ih =>
    intro a h
    simp only [List.foldl_cons]
    rcases Option.isSome_iff_exists.mp (h b (List.mem_cons_self b t)) with ⟨v, hv⟩
    rw [hv]
    exact ih (a + v) (fun x hx => h x (List.mem_cons_of_mem b hx))

theorem signalColumns_length (stats : List MonthStats) :
    ∀ c ∈ signalColumns stats, c.length = stats.length := by
  intro c hc
  simp only [signalColumns, List.mem_cons, List.not_mem_nil, or_false] at hc
  rcases hc with h | h | h | h | h <;> subst h <;> simp

theorem healthIndexList_cases (stats : List MonthStats) :
    (∀ o ∈ healthIndexList stats, o = none)
    ∨ (∀ o ∈ healthIndexList stats, o.isSome) := by
  by_cases hall : ∀ c ∈ (signalColumns stats).map normSignal, ∀ o ∈ c, o.isSome
  · right
    intro o ho
    unfold healthIndexList at ho
    rcases List.mem_map.mp ho with ⟨i, hi, rfl⟩
    have hi' : i < stats.length := List.mem_range.mp hi
    apply foldl_optAdd_isSome
    intro wc hwc
    have h2 : wc.2 ∈ (signalColumns stats).map normSignal := by
      have := List.of_mem_zip (a := wc.1) (b := wc.2) (by simpa using hwc)
      exact this.2
    have hlen : wc.2.length = stats.length := by
      rcases List.mem_map.mp h2 with ⟨col, hcol, hceq⟩
      rw [← hceq, normSignal_length]
      exact signalColumns_length stats col hcol
    have hmem : wc.2.getD i none ∈ wc.2 :=
      getD_mem_of_lt _ _ _ (by rw [hlen]; exact hi')
    have hsome := hall wc.2 h2 _ hmem
    simpa using hsome
  · left
    push_neg at hall
    rcases hall with ⟨c, hc, o0, ho0, hnone⟩
    rcases List.mem_map.mp hc with ⟨col, hcol, hceq⟩
    have hcn : ∀ o ∈ c, o = none := by
      rcases normSignal_cases col with h | h
      · rw [← hceq]; exact h
      · exact absurd (h o0 (hceq ▸ ho0)) hnone
    intro o ho
    unfold healthIndexList at ho
    rcases List.mem_map.mp ho with ⟨i, hi, rfl⟩
    apply foldl_optAdd_eq_none
    rcases List.mem_iff_getElem.mp hc with ⟨j, hj, hcj⟩
    have hjw : j < defaultWeights.length := by
      have h5 : ((signalColumns stats).map normSignal).length = 5 := by
        simp [signalColumns]
      rw [h5] at hj
      simpa [defaultWeights] using hj
    have hjz : j < (defaultWeights.zip ((signalColumns stats).map normSignal)).length := by
      rw [List.length_zip]
      exact lt_min hjw hj
    refine ⟨(defaultWeights.zip ((signalColumns stats).map normSignal))[j], List.getElem_mem hjz, ?_⟩
    have hpair : (defaultWeights.zip ((signalColumns stats).map normSignal))[j]
        = (defaultWeights[j], c) := by
      rw [List.getElem_zip, hcj]
    rw [hpair]
    by_cases hic : i < c.length
    · have := hcn _ (getD_mem_of_lt c none i hic)
      rw [this]
      rfl
    · rw [List.getD_eq_default _ _ (le_of_not_lt hic)]
      rfl

theorem someVals_nil_of_none (hs : List (Option ℝ)) (h : ∀ o ∈ hs, o = none) :
    someVals hs = [] := by
  unfold someVals
  rw [List.filterMap_eq_nil_iff]
  intro o ho
  rw [h o ho]
  rfl

theorem mem_someVals {hs : List (Option ℝ)} {x : ℝ} :
    x ∈ someVals hs ↔ some x ∈ hs := by
  unfold someVals
  rw [List.mem_filterMap]
  constructor
  · rintro ⟨o, ho, hid⟩
    have : o = some x := hid
    rwa [this] at ho
  · intro h
    exact ⟨some x, h, rfl⟩

theorem someVals_length_all (hs : List (Option ℝ)) (h : ∀ o ∈ hs, o.isSome) :
    (someVals hs).length = hs.length := by
  induction hs with
  | nil => rfl
  | cons a t ih =>
    rcases Option.isSome_iff_exists.mp (h a (List.mem_cons_self a t)) with ⟨v, rfl⟩
    have ht := ih (fun o ho => h o (List.mem_cons_of_mem _ ho))
    simp only [someVals, List.filterMap_cons] at ht ⊢
    simp [ht]

theorem rescaleIndex_bounds (hs : List (Option ℝ))
    (hcase : (∀ o ∈ hs, o = none) ∨ (∀ o ∈ hs, o.isSome)) :
    ∀ o ∈ rescaleIndex hs, ∃ v, o = some v ∧ 0 ≤ v ∧ v ≤ 100 := by
  have h50 : ∀ o ∈ hs.map (fun _ => some (50 : ℝ)), ∃ v, o = some v ∧ 0 ≤ v ∧ v ≤ 100 := by
    intro o ho
    rcases List.mem_map.mp ho with ⟨x, _, rfl⟩
    exact ⟨50, rfl, by norm_num, by norm_num⟩
  rcases hcase with hnone | hsome
  · have hsv : someVals hs = [] := someVals_nil_of_none hs hnone
    unfold rescaleIndex
    rw [hsv]
    exact h50
  · cases hh : someVals hs with
    | nil =>
      unfold rescaleIndex
      rw [hh]
      exact h50
    | cons v0 vs =>
      unfold rescaleIndex
      rw [hh]
      simp only [rMinL, rMaxL]
      by_cases hlt : vs.foldl min v0 < vs.foldl max v0
      · rw [if_pos hlt]
        intro o ho
        rcases List.mem_map.mp ho with ⟨oo, hoo, rfl⟩
        rcases Option.isSome_iff_exists.mp (hsome oo hoo) with ⟨h0, rfl⟩
        refine ⟨(h0 - vs.foldl min v0) / (vs.foldl max v0 - vs.foldl min v0) * 100,
          rfl, ?_, ?_⟩
        · have hmem : h0 ∈ someVals hs := mem_someVals.mpr hoo
          rw [hh] at hmem
          have hmn : vs.foldl min v0 ≤ h0 := by
            rcases List.mem_cons.mp hmem with rfl | hm
            · exact foldl_min_le vs h0 h0 (Or.inl rfl)
            · exact foldl_min_le vs v0 h0 (Or.inr hm)
          have hpos : 0 < vs.foldl max v0 - vs.foldl min v0 := sub_pos.mpr hlt
          exact mul_nonneg (div_nonneg (by linarith) (le_of_lt hpos)) (by norm_num)
        · have hmem : h0 ∈ someVals hs := mem_someVals.mpr hoo
          rw [hh] at hmem
          have hmx : h0 ≤ vs.foldl max v0 := by
            rcases List.mem_cons.mp hmem with rfl | hm
            · exact le_foldl_max vs h0 h0 (Or.inl rfl)
            · exact le_foldl_max vs v0 h0 (Or.inr hm)
          have hpos : 0 < vs.foldl max v0 - vs.foldl min v0 := sub_pos.mpr hlt
          have hq : (h0 - vs.foldl min v0) / (vs.foldl max v0 - vs.foldl min v0) ≤ 1 :=
            (div_le_one hpos).mpr (by linarith)
          have := mul_le_mul_of_nonneg_right hq (by norm_num : (0 : ℝ) ≤ 100)
          simpa using this
      · rw [if_neg hlt]
        exact h50

theorem movingAvgCol_eq_of_short (window : Nat) (xs : List (Option ℝ))
    (h : xs.length < window) : movingAvgCol window xs = xs := by
  unfold movingAvgCol
  rw [if_neg (not_le.mpr h)]

theorem movingAvgCol_getD (window : Nat) (xs : List (Option ℝ))
    (h : window ≤ xs.length) (i : Nat) (hi : i < xs.length) :
    (movingAvgCol window xs).getD i none
      = (if i + 1 < window then none
         else
           if ((xs.drop (i + 1 - window)).take window).all Option.isSome then
             some ((someVals ((xs.drop (i + 1 - window)).take window)).sum / (window : ℝ))
           else none) := by
  unfold movingAvgCol
  rw [if_pos h]
  have hlen : i < ((List.range xs.length).map (fun i =>
      if i + 1 < window then none
      else
        if ((xs.drop (i + 1 - window)).take window).all Option.isSome then
          some ((someVals ((xs.drop (i + 1 - window)).take window)).sum / (window : ℝ))
        else none)).length := by
    simpa using hi
  rw [List.getD_eq_getElem _ _ hlen, List.getElem_map, List.getElem_range]

theorem movingAvgCol_getD_none (window : Nat) (xs : List (Option ℝ))
    (h : window ≤ xs.length) (i : Nat) (hi : i < xs.length) (hfull : i + 1 < window) :
    (movingAvgCol window xs).getD i none = none := by
  rw [movingAvgCol_getD window xs h i hi, if_pos hfull]

theorem movingAvgCol_bounds (window : Nat) (hw : 0 < window) (xs : List (Option ℝ))
    (hxs : ∀ o ∈ xs, ∃ v, o = some v ∧ 0 ≤ v ∧ v ≤ 100) :
    ∀ o ∈ movingAvgCol window xs, ∀ v : ℝ, o = some v → 0 ≤ v ∧ v ≤ 100 := by
  by_cases hlong : window ≤ xs.length
  swap
  · rw [movingAvgCol_eq_of_short window xs (not_le.mp hlong)]
    intro o ho v hv
    rcases hxs o ho with ⟨u, hu, hb⟩
    rw [hu] at hv
    rcases Option.some_inj.mp hv with rfl
    exact hb
  · intro o ho v hv
    unfold movingAvgCol at ho
    rw [if_pos hlong] at ho
    rcases List.mem_map.mp ho with ⟨i, hi, heq⟩
    have hi' : i < xs.length := List.mem_range.mp hi
    rw [← heq] at hv
    by_cases hfull : i + 1 < window
    · rw [if_pos hfull] at hv
      exact absurd hv (by simp)
    · rw [if_neg hfull] at hv
      by_cases hall : ((xs.drop (i + 1 - window)).take window).all Option.isSome
      · rw [if_pos hall] at hv
        have hveq : (someVals ((xs.drop (i + 1 - window)).take window)).sum / (window : ℝ)
            = v := Option.some_inj.mp hv
        set w := (xs.drop (i + 1 - window)).take window with hwdef
        have hwmem : ∀ x ∈ someVals w, 0 ≤ x ∧ x ≤ 100 := by
          intro x hx
          have hsx : some x ∈ w := mem_someVals.mp hx
          have hmemxs : some x ∈ xs :=
            List.mem_of_mem_drop (List.mem_of_mem_take (hwdef ▸ hsx))
          rcases hxs _ hmemxs with ⟨u, hu, hb⟩
          rcases Option.some_inj.mp hu with rfl
          exact hb
        have hlw : w.length = window := by
          rw [hwdef, List.length_take, List.length_drop]
          omega
        have hsvlen : (someVals w).length = w.length := by
          apply someVals_length_all
          intro o' ho'
          exact (List.all_eq_true.mp hall) o' ho'
        have hwin : (0 : ℝ) < (window : ℝ) := by exact_mod_cast hw
        have hsum0 : 0 ≤ (someVals w).sum :=
          List.sum_nonneg (fun x hx => (hwmem x hx).1)
        have hsum100 : (someVals w).sum ≤ 100 * (window : ℝ) := by
          have h1 : (someVals w).sum ≤ (someVals w).length • (100 : ℝ) :=
            List.sum_le_card_nsmul _ _ (fun x hx => (hwmem x hx).2)
          rw [hsvlen, hlw] at h1
          rw [nsmul_eq_mul] at h1
          linarith
        constructor
        · rw [← hveq]
          exact div_nonneg hsum0 (le_of_lt hwin)
        · rw [← hveq]
          rw [div_le_iff₀ hwin]
          linarith
      · rw [if_neg hall] at hv
        exact absurd hv (by simp)

theorem map_const_50 (hs : List (Option ℝ)) :
    hs.map (fun _ => some (50 : ℝ)) = List.replicate hs.length (some 50) := by
  induction hs with
  | nil => rfl
  | cons a t ih => simp [ih, List.replicate_succ]

theorem rescaleIndex_const (hs : List (Option ℝ))
    (hconst : ∀ a ∈ hs, ∀ b ∈ hs, a = b) :
    rescaleIndex hs = List.replicate hs.length (some 50) := by
  cases hhs : hs with
  | nil =>
    unfold rescaleIndex someVals
    simp [rMinL, rMaxL]
  | cons a t =>
    have ha : a ∈ hs := hhs ▸ List.mem_cons_self a t
    have hall : ∀ b ∈ hs, b = a := fun b hb => hconst b hb a ha
    have hmemv : ∀ x ∈ someVals hs, some x = a := by
      intro x hx
      exact hall _ (mem_someVals.mp hx)
    rw [← hhs, ← map_const_50 hs]
    cases hsv : someVals hs with
    | nil =>
      unfold rescaleIndex
      rw [hsv]
      simp [rMinL, rMaxL]
    | cons v0 vs =>
      have hv0 : some v0 = a := hmemv v0 (hsv ▸ List.mem_cons_self v0 vs)
      have hvs : ∀ x ∈ vs, x = v0 := by
        intro x hx
        have := hmemv x (hsv ▸ List.mem_cons_of_mem v0 hx)
        rw [← hv0] at this
        exact Option.some_inj.mp this
      have hmn : vs.foldl min v0 = v0 :=
        le_antisymm (foldl_min_le vs v0 v0 (Or.inl rfl))
          (le_foldl_min vs v0 v0 (le_refl v0) (fun x hx => le_of_eq (hvs x hx).symm))
      have hmx : vs.foldl max v0 = v0 :=
        le_antisymm (foldl_max_le vs v0 v0 (le_refl v0)
            (fun x hx => le_of_eq (hvs x hx)))
          (le_foldl_max vs v0 v0 (Or.inl rfl))
      unfold rescaleIndex
      rw [hsv]
      simp only [rMinL, rMaxL]
      rw [hmn, hmx, if_neg (lt_irrefl v0)]

theorem minmaxNorm_mem_bounds (xs : List ℚ) : ∀ v ∈ minmaxNorm xs, -1 ≤ v ∧ v ≤ 1 := by
  intro v hv
  by_cases hlt : qMinL xs < qMaxL xs
  · unfold minmaxNorm at hv
    rw [if_pos hlt] at hv
    rcases List.mem_map.mp hv with ⟨x, hx, rfl⟩
    have hmn := qMinL_le xs x hx
    have hmx := le_qMaxL xs x hx
    have hpos : 0 < qMaxL xs - qMinL xs := sub_pos.mpr hlt
    have h0 : 0 ≤ (x - qMinL xs) / (qMaxL xs - qMinL xs) :=
      div_nonneg (by linarith) (le_of_lt hpos)
    have h1 : (x - qMinL xs) / (qMaxL xs - qMinL xs) ≤ 1 :=
      (div_le_one hpos).mpr (by linarith)
    constructor <;> linarith
  · unfold minmaxNorm at hv
    rw [if_neg hlt] at hv
    rcases List.mem_map.mp hv with ⟨x, _, rfl⟩
    norm_num

/-- C7: with fewer than 3 months of history the signal normalization is
the min-max branch — mapping into [-1, 1], with the defined neutral
value 0 for a constant signal (min = max) and a defined (non-NaN) value
for every month; with at least 3 months it is instead the population
z-score clipped to [-3, 3] (every value defined and in [-3, 3] whenever
the signal's variance is nonzero). -/
theorem claim_C7 (xs : List ℚ) :
    (xs.length < 3 →
      normSignal xs = (minmaxNorm xs).map (fun q => some ((Rat.cast q : ℝ)))
      ∧ (∀ v ∈ minmaxNorm xs, -1 ≤ v ∧ v ≤ 1)
      ∧ (qMinL xs = qMaxL xs → minmaxNorm xs = xs.map (fun _ => 0))
      ∧ (∀ o ∈ normSignal xs, o.isSome))
    ∧ (3 ≤ xs.length →
        normSignal xs = zscoreClip xs
        ∧ (qVarP xs ≠ 0 →
            ∀ o ∈ zscoreClip xs, ∃ v, o = some v ∧ -3 ≤ v ∧ v ≤ 3)) := by
  constructor
  · intro hlen
    have hns : normSignal xs = (minmaxNorm xs).map (fun q => some ((Rat.cast q : ℝ))) := by
      unfold normSignal
      rw [if_neg (not_le.mpr hlen)]
    refine ⟨hns, minmaxNorm_mem_bounds xs, ?_, ?_⟩
    · intro heq
      unfold minmaxNorm
      rw [if_neg (by rw [heq]; exact lt_irrefl _)]
    · intro o ho
      rw [hns] at ho
      rcases List.mem_map.mp ho with ⟨q, _, rfl⟩
      rfl
  · intro hlen
    have hz : normSignal xs = zscoreClip xs := by
      unfold normSignal
      rw [if_pos hlen]
    refine ⟨hz, fun hvar o ho => ?_⟩
    unfold zscoreClip at ho
    rw [if_neg hvar] at ho
    rcases List.mem_map.mp ho with ⟨x, _, rfl⟩
    refine ⟨_, rfl, ?_, ?_⟩
    · exact le_min (le_max_right _ _) (by norm_num)
    · exact min_le_right _ _

/-- C7 (witness): the claim applied to the two-month signal [1, 2]. -/
theorem claim_C7_witness :
    ([(1 : ℚ), 2] : List ℚ).length < 3
    ∧ (∀ v ∈ minmaxNorm [(1 : ℚ), 2], -1 ≤ v ∧ v ≤ 1)
    ∧ (∀ o ∈ normSignal [(1 : ℚ), 2], o.isSome) :=
  ⟨by norm_num, ((claim_C7 [(1 : ℚ), 2]).1 (by norm_num)).2.1,
    ((claim_C7 [(1 : ℚ), 2]).1 (by norm_num)).2.2.2⟩

/-- C4 (amended): when the series is shorter than the moving-average
window, the smoothed column equals the unsmoothed rescaled column; but
when the series is at least `window` long, every month before the window
is first full has an undefined (NaN) smoothed score, and months with a
full window of defined scores have a defined smoothed score. -/
theorem claim_C4_amended (xs : List (Option ℝ)) (window : Nat) :
    (xs.length < window → movingAvgCol window xs = xs)
    ∧ (window ≤ xs.length → ∀ i, i < xs.length → i + 1 < window →
        (movingAvgCol window xs).getD i none = none)
    ∧ (window ≤ xs.length → (∀ o ∈ xs, o.isSome) → ∀ i, i < xs.length →
        window ≤ i + 1 → ((movingAvgCol window xs).getD i none).isSome) := by
  refine ⟨movingAvgCol_eq_of_short window xs,
    fun h i hi hfull => movingAvgCol_getD_none window xs h i hi hfull,
    fun h hsome i hi hwi => ?_⟩
  rw [movingAvgCol_getD window xs h i hi, if_neg (not_lt.mpr hwi)]
  have hall : ((xs.drop (i + 1 - window)).take window).all Option.isSome := by
    rw [List.all_eq_true]
    intro o ho
    exact hsome o (List.mem_of_mem_drop (List.mem_of_mem_take ho))
  rw [if_pos hall]
  rfl

/-- C4 (counterexample): on a two-month posting set with window 2 the
first month's window is not yet full, and its smoothed score is NaN
(undefined) — not the unsmoothed rescaled score, which is defined. -/
theorem claim_C4_counterexample :
    (health_index_ma c4ps 2).getD 0 none = none
    ∧ (health_index_scaled c4ps).getD 0 none ≠ none := by
  have hlen : (health_index_scaled c4ps).length = 2 := by
    unfold health_index_scaled
    rw [rescaleIndex_length, healthIndexList_length]
    unfold monthlyStats
    rw [List.length_map]
    decide
  constructor
  · unfold health_index_ma
    exact movingAvgCol_getD_none 2 _ (by rw [hlen]) 0 (by rw [hlen]; norm_num)
      (by norm_num)
  · have hmem : (health_index_scaled c4ps).getD 0 none ∈ health_index_scaled c4ps :=
      getD_mem_of_lt _ _ _ (by rw [hlen]; norm_num)
    unfold health_index_scaled at hmem ⊢
    rcases rescaleIndex_bounds _ (healthIndexList_cases (monthlyStats c4ps)) _ hmem
      with ⟨v, hv, _⟩
    rw [hv]
    simp

/-- C4 (witness): the amended claim's short-series clause at a two-entry
column with window 3. -/
theorem claim_C4_amended_witness :
    ([some (1 : ℝ), some 2] : List (Option ℝ)).length < 3
    ∧ movingAvgCol 3 [some (1 : ℝ), some 2] = [some 1, some 2] :=
  ⟨by norm_num, (claim_C4_amended [some 1, some 2] 3).1 (by norm_num)⟩

/-- C5 (amended): for every non-empty posting set and positive window,
every composite rescaled score is defined and lies in [0, 100], and
every smoothed score that is defined lies in [0, 100].  (The smoothed
scores of the first `window - 1` months are undefined (NaN) when the
history is at least `window` months long.) -/
theorem claim_C5_amended (ps : List Posting) (window : Nat) (hps : ps ≠ [])
    (hw : 0 < window) :
    (∀ o ∈ health_index_scaled ps, ∃ v, o = some v ∧ 0 ≤ v ∧ v ≤ 100)
    ∧ (∀ o ∈ health_index_ma ps window, ∀ v : ℝ, o = some v → 0 ≤ v ∧ v ≤ 100) := by
  have hsc : ∀ o ∈ health_index_scaled ps, ∃ v, o = some v ∧ 0 ≤ v ∧ v ≤ 100 := by
    unfold health_index_scaled
    exact rescaleIndex_bounds _ (healthIndexList_cases (monthlyStats ps))
  refine ⟨hsc, ?_⟩
  unfold health_index_ma
  exact movingAvgCol_bounds window hw _ hsc

/-- C5 (counterexample): on a two-month posting set with window 2, the
first smoothed score is NaN (undefined), so not every smoothed score
produced lies within [0, 100]. -/
theorem claim_C5_counterexample :
    ¬ (∀ o ∈ health_index_ma c5ps 2, ∃ v : ℝ, o = some v ∧ 0 ≤ v ∧ v ≤ 100) := by
  intro hcl
  have hlen : (health_index_scaled c5ps).length = 2 := by
    unfold health_index_scaled
    rw [rescaleIndex_length, healthIndexList_length]
    unfold monthlyStats
    rw [List.length_map]
    decide
  have h0 : (health_index_ma c5ps 2).getD 0 none = none := by
    unfold health_index_ma
    exact movingAvgCol_getD_none 2 _ (by rw [hlen]) 0 (by rw [hlen]; norm_num)
      (by norm_num)
  have hmem : (health_index_ma c5ps 2).getD 0 none ∈ health_index_ma c5ps 2 := by
    apply getD_mem_of_lt
    unfold health_index_ma
    rw [movingAvgCol_length, hlen]
    norm_num
  rcases hcl _ hmem with ⟨v, hv, _⟩
  rw [h0] at hv
  exact Option.noConfusion hv

/-- C5 (witness): the amended claim's scaled-score clause on the
two-month posting set with window 3. -/
theorem claim_C5_amended_witness :
    c5ps ≠ [] ∧ (0 : Nat) < 3
    ∧ (∀ o ∈ health_index_scaled c5ps, ∃ v, o = some v ∧ 0 ≤ v ∧ v ≤ 100) :=
  ⟨by simp [c5ps], by norm_num, (claim_C5_amended c5ps 3 (by simp [c5ps]) (by norm_num)).1⟩

/-- C10: for every non-empty posting set whose weighted composite value
is identical across all months (so its max equals its min — e.g. a
single month of history), the rescaled 0-100 score is the defined
neutral value 50 for every month. -/
theorem claim_C10 (ps : List Posting) (hps : ps ≠ [])
    (hconst : ∀ a ∈ healthIndexList (monthlyStats ps),
        ∀ b ∈ healthIndexList (monthlyStats ps), a = b) :
    health_index_scaled ps = List.replicate (monthlyStats ps).length (some 50) := by
  unfold health_index_scaled
  rw [rescaleIndex_const _ hconst, healthIndexList_length]

/-- C10 (witness): the claim applied to a single-posting input, whose
composite column has a single (hence constant) entry. -/
theorem claim_C10_witness :
    c10ps ≠ []
    ∧ health_index_scaled c10ps
        = List.replicate (monthlyStats c10ps).length (some 50) := by
  have hlen : (healthIndexList (monthlyStats c10ps)).length = 1 := by
    rw [healthIndexList_length]
    unfold monthlyStats
    rw [List.length_map]
    decide
  have hconst : ∀ a ∈ healthIndexList (monthlyStats c10ps),
      ∀ b ∈ healthIndexList (monthlyStats c10ps), a = b := by
    rcases List.length_eq_one.mp hlen with ⟨x, hx⟩
    rw [hx]
    intro a ha b hb
    simp only [List.mem_singleton] at ha hb
    rw [ha, hb]
  exact ⟨by simp [c10ps], claim_C10 c10ps (by simp [c10ps]) hconst⟩

end JobTrends
